import Mathlib

/-!
Verification of the `gemote` remote-reconciliation tool.

The Rust source (src/sync.rs, src/git.rs, src/config.rs, src/main.rs) is
shallowly embedded here.  `BTreeMap<String, V>` values are embedded as
association lists `List (String × V)`; the BTreeMap invariant (keys strictly
ascending) appears as a `List.Chain' (· < ·)` hypothesis where a theorem
needs it.  Side effects on `stderr` (the diagnostic side-channel) are
embedded as an explicit `List Diag` result component, and mutation of the
underlying git repository as explicit state passing of a remote map.
-/

namespace Gemote

/-- Embeds `git::RemoteInfo` (src/git.rs): observed identity of one remote. -/
structure RemoteInfo where
  url : String
  push_url : Option String
deriving DecidableEq, Repr

/-- Embeds `config::RemoteConfig` (src/config.rs): desired identity of one remote. -/
structure RemoteConfig where
  url : String
  push_url : Option String
deriving DecidableEq, Repr

/-- Embeds `config::ExtraRemotes` (src/config.rs), default `Ignore`. -/
inductive ExtraRemotes where
  | Ignore
  | Warn
  | Remove
deriving DecidableEq, Repr

/-- Embeds `config::Settings` (src/config.rs). -/
structure Settings where
  extra_remotes : ExtraRemotes
deriving DecidableEq, Repr

/-- Embeds `config::GemoteConfig` (src/config.rs): a recursive tree node with
settings, a remote-name → desired-state map and a path → nested-config map
(both `BTreeMap`s, embedded as association lists). -/
inductive GemoteConfig where
  | mk (settings : Settings) (remotes : List (String × RemoteConfig))
       (submodules : List (String × GemoteConfig))
deriving Repr

def GemoteConfig.settings : GemoteConfig → Settings
  | .mk s _ _ => s

def GemoteConfig.remotes : GemoteConfig → List (String × RemoteConfig)
  | .mk _ r _ => r

def GemoteConfig.submodules : GemoteConfig → List (String × GemoteConfig)
  | .mk _ _ s => s

/-- `BTreeMap::get`: first association for a key. -/
def lookupKey {α : Type} (n : String) : List (String × α) → Option α
  | [] => none
  | (m, v) :: rest => if m = n then some v else lookupKey n rest

/-- `BTreeMap::contains_key`. -/
def containsKey {α : Type} (n : String) (l : List (String × α)) : Bool :=
  (lookupKey n l).isSome

/-- Embeds `sync::SyncAction` (src/sync.rs). -/
inductive SyncAction where
  | Add (name url : String) (push_url : Option String)
  | UpdateUrl (name old_url new_url : String)
  | UpdatePushUrl (name : String) (old new : Option String)
  | Remove (name : String)
deriving DecidableEq, Repr

/-- The remote name an action concerns. -/
def SyncAction.name : SyncAction → String
  | .Add n _ _ => n
  | .UpdateUrl n _ _ => n
  | .UpdatePushUrl n _ _ => n
  | .Remove n => n

def SyncAction.isRemove : SyncAction → Bool
  | .Remove _ => true
  | _ => false

/-- A message emitted on the diagnostic side-channel (`eprintln!` in the source). -/
inductive Diag where
  | extraRemoteWarn (name : String)
deriving DecidableEq, Repr

/-- First loop body of `compute_diff` (src/sync.rs lines 84-110): actions for one
desired remote, looked up in the local map. -/
def diffOne (locals : List (String × RemoteInfo)) (nrc : String × RemoteConfig) :
    List SyncAction :=
  match lookupKey nrc.1 locals with
  | none => [.Add nrc.1 nrc.2.url nrc.2.push_url]
  | some lr =>
    (if lr.url ≠ nrc.2.url then [.UpdateUrl nrc.1 lr.url nrc.2.url] else []) ++
    (if lr.push_url ≠ nrc.2.push_url then
      [.UpdatePushUrl nrc.1 lr.push_url nrc.2.push_url] else [])

/-- Second loop body of `compute_diff` (src/sync.rs lines 113-129): treatment of
one local remote name under the extra-remote policy.  The second component is
the diagnostic channel (`eprintln!` in the `Warn` arm). -/
def diffExtra (remotes : List (String × RemoteConfig)) (policy : ExtraRemotes)
    (n : String) : List SyncAction × List Diag :=
  if containsKey n remotes then ([], [])
  else
    match policy with
    | .Ignore => ([], [])
    | .Warn => ([], [.extraRemoteWarn n])
    | .Remove => ([.Remove n], [])

/-- Actions from the first loop of `compute_diff`: desired remotes in map order. -/
def diffPass1 (config : GemoteConfig) (locals : List (String × RemoteInfo)) :
    List SyncAction :=
  (config.remotes.map (diffOne locals)).flatten

/-- Actions from the second loop of `compute_diff`: extra local remotes in map order. -/
def diffPass2 (config : GemoteConfig) (locals : List (String × RemoteInfo)) :
    List SyncAction :=
  (locals.map (fun nv =>
    (diffExtra config.remotes config.settings.extra_remotes nv.1).1)).flatten

/-- Diagnostics emitted during the second loop of `compute_diff`. -/
def diffDiags (config : GemoteConfig) (locals : List (String × RemoteInfo)) :
    List Diag :=
  (locals.map (fun nv =>
    (diffExtra config.remotes config.settings.extra_remotes nv.1).2)).flatten

/-- Embeds `sync::compute_diff` (src/sync.rs lines 77-132).  The Rust function
returns only the action vector and prints warnings to stderr; here the
diagnostic side-channel is the explicit second component. -/
def computeDiff (config : GemoteConfig) (locals : List (String × RemoteInfo)) :
    List SyncAction × List Diag :=
  (diffPass1 config locals ++ diffPass2 config locals, diffDiags config locals)

/-! ### The apply step -/

/-- Failure modes of the git collaborator (the `git2` calls in src/git.rs),
modelled per the capability interface: creating a remote fails when the name
already exists, updating or deleting fails when it does not exist. -/
inductive GitError where
  | remoteExists (name : String)
  | remoteNotFound (name : String)
deriving DecidableEq, Repr

/-- The remote map of one repository: the state `apply_actions` mutates. -/
abbrev RepoState := List (String × RemoteInfo)

/-- Key-ordered insert-or-replace, the map-update primitive used to model the
repository's name-keyed remote configuration. -/
def insertSorted {α : Type} (n : String) (v : α) :
    List (String × α) → List (String × α)
  | [] => [(n, v)]
  | (m, w) :: rest =>
    if n < m then (n, v) :: (m, w) :: rest
    else if n = m then (n, v) :: rest
    else (m, w) :: insertSorted n v rest

/-- Deletes the association for a key. -/
def eraseKey {α : Type} (n : String) : List (String × α) → List (String × α)
  | [] => []
  | (m, w) :: rest => if m = n then rest else (m, w) :: eraseKey n rest

/-- Embeds `git::add_remote` (src/git.rs lines 32-43): `repo.remote` fails if a
remote with that name exists, then the push url is set when given. -/
def addRemote (st : RepoState) (name url : String) (push_url : Option String) :
    Except GitError RepoState :=
  if containsKey name st then .error (.remoteExists name)
  else .ok (insertSorted name ⟨url, push_url⟩ st)

/-- Embeds `git::update_remote_url` (src/git.rs lines 45-52): sets the fetch
url of an existing remote. -/
def updateRemoteUrl (st : RepoState) (name url : String) :
    Except GitError RepoState :=
  match lookupKey name st with
  | none => .error (.remoteNotFound name)
  | some ri => .ok (insertSorted name ⟨url, ri.push_url⟩ st)

/-- Embeds `git::update_remote_push_url` (src/git.rs lines 54-61): sets or
clears the push url of an existing remote. -/
def updateRemotePushUrl (st : RepoState) (name : String) (push : Option String) :
    Except GitError RepoState :=
  match lookupKey name st with
  | none => .error (.remoteNotFound name)
  | some ri => .ok (insertSorted name ⟨ri.url, push⟩ st)

/-- Embeds `git::remove_remote` (src/git.rs lines 63-66): deletes an existing
remote, failing if it does not exist. -/
def removeRemote (st : RepoState) (name : String) : Except GitError RepoState :=
  if containsKey name st then .ok (eraseKey name st)
  else .error (.remoteNotFound name)

/-- One iteration of the `apply_actions` loop body (src/sync.rs lines 136-153). -/
def applyAction (st : RepoState) : SyncAction → Except GitError RepoState
  | .Add name url push_url => addRemote st name url push_url
  | .UpdateUrl name _ new_url => updateRemoteUrl st name new_url
  | .UpdatePushUrl name _ new => updateRemotePushUrl st name new
  | .Remove name => removeRemote st name

/-- Embeds `sync::apply_actions` (src/sync.rs lines 134-156).  The repository
is mutated in place in the source; the model threads the state explicitly and
returns it with the result: on the first failing action the loop stops (the
`?` operator), later actions are never attempted, and mutations made by
earlier actions persist. -/
def applyActions (st : RepoState) : List SyncAction → RepoState × Option GitError
  | [] => (st, none)
  | a :: rest =>
    match applyAction st a with
    | .ok st' => applyActions st' rest
    | .error e => (st, some e)

/-- The state after an all-successful application of a list of actions. -/
def applyOkList (st : RepoState) : List SyncAction → Option RepoState
  | [] => some st
  | a :: rest =>
    match applyAction st a with
    | .ok st' => applyOkList st' rest
    | .error _ => none

/-! ### Filesystem discovery -/

/-- A filesystem entry as seen by the scan in `discover_nested_repos_recursive`
(src/git.rs lines 105-158): a non-directory entry, or a directory with its
name, whether the `.git` marker exists inside it, whether
`git2::Repository::open` succeeds on it, the handle of the opened repository
(modelled as a numeric identifier), and its entries in `read_dir` order. -/
inductive FsEntry where
  | file (name : String)
  | dir (name : String) (hasGit : Bool) (openOk : Bool) (repoId : Nat)
        (children : List FsEntry)
deriving Repr

/-- `name_str.starts_with('.')` (src/git.rs line 124), as a test on the first
character. -/
def isHidden (name : String) : Bool :=
  match name.data with
  | [] => false
  | c :: _ => c = '.'

/-- Embeds `git::SubRepoInfo` (src/git.rs lines 68-71): a discovered
repository's slash-normalized relative path and its repository handle,
modelled as a numeric identifier. -/
structure SubRepoInfo where
  path : String
  repo : Nat
deriving DecidableEq, Repr

/-- Embeds `discover_nested_repos_recursive` (src/git.rs lines 105-158).
`pre` holds the directory names from the scan base down to the current
directory, so `String.intercalate "/" (pre ++ [name])` is the entry's
slash-normalized path relative to the base.  Non-directories are skipped;
hidden directories are skipped; known submodule paths are skipped; a
directory containing the `.git` marker is recorded (when it can be opened;
otherwise only a warning is printed) and never recursed into; any other
directory is recursed into. -/
def discoverRec (pre : List String) (entries : List FsEntry)
    (known : List String) : List SubRepoInfo :=
  match entries with
  | [] => []
  | .file _ :: rest => discoverRec pre rest known
  | .dir name hasGit openOk rid children :: rest =>
    if isHidden name then discoverRec pre rest known
    else
      let rel := String.intercalate "/" (pre ++ [name])
      if rel ∈ known then discoverRec pre rest known
      else if hasGit then
        (if openOk then [⟨rel, rid⟩] else []) ++ discoverRec pre rest known
      else
        discoverRec (pre ++ [name]) children known ++ discoverRec pre rest known
termination_by sizeOf entries

/-- Embeds `git::discover_nested_repos` (src/git.rs lines 96-103): scan the
repository root's entries with an empty relative prefix. -/
def discoverNestedRepos (rootEntries : List FsEntry) (known : List String) :
    List SubRepoInfo :=
  discoverRec [] rootEntries known

mutual
/-- Empties the children of every directory that is a repository root.  That
discovery never looks inside a repository root is expressed as invariance of
the scan under this pruning. -/
def pruneRepo : FsEntry → FsEntry
  | .file n => .file n
  | .dir n hasGit openOk rid children =>
    .dir n hasGit openOk rid (if hasGit then [] else pruneList children)

/-- `pruneRepo` applied to each entry of a directory listing. -/
def pruneList : List FsEntry → List FsEntry
  | [] => []
  | e :: rest => pruneRepo e :: pruneList rest
end

/-- The dedup step of `collect_all_repos` (src/git.rs lines 171-172):
`all.retain(|info| seen.insert(info.path.clone()))` keeps the first
occurrence of each path. -/
def dedupByPath : List SubRepoInfo → List String → List SubRepoInfo
  | [], _ => []
  | x :: rest, seen =>
    if x.path ∈ seen then dedupByPath rest seen
    else x :: dedupByPath rest (x.path :: seen)

/-- Embeds `git::collect_all_repos` (src/git.rs lines 160-175): merge the
registered submodules (the ones `list_submodules` could open, an input here
since `.gitmodules` is external data) with the filesystem scan that skips
their paths, deduplicate by path keeping the first occurrence, and sort
ascending by path. -/
def collectAllRepos (submodules : List SubRepoInfo)
    (rootEntries : List FsEntry) : List SubRepoInfo :=
  let known := submodules.map SubRepoInfo.path
  let nested := discoverNestedRepos rootEntries known
  let all := submodules ++ nested
  (dedupByPath all []).insertionSort (fun a b => a.path ≤ b.path)

/-! ### The orchestrator -/

/-- The data one repository node supplies to the orchestrator (src/main.rs):
the git collaborator's response to `list_remotes`, the live remote state at
apply time (distinguished from the snapshot to model the snapshot-to-apply
window during which an external actor may mutate the repository), and the
result of `collect_all_repos` on this node's working directory — its
discovered direct sub-repositories with their relative paths. -/
inductive RepoTree where
  | mk (listRemotes : Except GitError (List (String × RemoteInfo)))
       (live : RepoState)
       (subs : List (String × RepoTree))

def RepoTree.listRemotes : RepoTree →
    Except GitError (List (String × RemoteInfo))
  | .mk l _ _ => l

def RepoTree.live : RepoTree → RepoState
  | .mk _ s _ => s

def RepoTree.subs : RepoTree → List (String × RepoTree)
  | .mk _ _ s => s

theorem RepoTree.sizeOf_subs_lt (t : RepoTree) : sizeOf t.subs < sizeOf t := by
  cases t with
  | mk l v s => simp [RepoTree.subs]

/-- Embeds `sync_one_repo` (src/main.rs lines 126-162): snapshot the remotes
(propagating a listing failure), compute the diff, return early when it is
empty or when `dry_run` is set, otherwise apply the actions to the live
repository.  The result is the repository state after the call, the computed
actions, the diagnostics, and the error, if any. -/
def syncOneRepo (cfg : GemoteConfig) (repo : RepoTree) (dryRun : Bool) :
    RepoState × List SyncAction × List Diag × Option GitError :=
  match repo.listRemotes with
  | .error e => (repo.live, [], [], some e)
  | .ok locals =>
    let actions := (computeDiff cfg locals).1
    let diags := (computeDiff cfg locals).2
    if actions = [] then (repo.live, actions, diags, none)
    else if dryRun then (repo.live, actions, diags, none)
    else
      ((applyActions repo.live actions).1, actions, diags,
        (applyActions repo.live actions).2)

/-- Embeds the submodule loop shared by `cmd_sync` (src/main.rs lines 67-90)
and `sync_submodules_recursive` (src/main.rs lines 96-124): iterate the
discovered sub-repositories in order; a sub-repository with no matching
config section only gets a warning diagnostic and is skipped; otherwise the
node is visited, synced — the `?` operator propagating any error and thereby
ending the loop — and, when its config has nested submodule sections,
descended into.  Returns the visited paths in visit order together with the
propagated error, if any. -/
def syncSubsList (dryRun : Bool) :
    List (String × RepoTree) → List (String × GemoteConfig) →
    List String × Option GitError
  | [], _ => ([], none)
  | (p, sub) :: rest, cfgSubs =>
    match lookupKey p cfgSubs with
    | none => syncSubsList dryRun rest cfgSubs
    | some subCfg =>
      match (syncOneRepo subCfg sub dryRun).2.2.2 with
      | some e => ([p], some e)
      | none =>
        match (if subCfg.submodules.isEmpty then (([], none) : List String × Option GitError)
               else syncSubsList dryRun sub.subs subCfg.submodules) with
        | (v1, some e) => (p :: v1, some e)
        | (v1, none) =>
          match syncSubsList dryRun rest cfgSubs with
          | (v2, e2) => (p :: (v1 ++ v2), e2)
termination_by l _ => sizeOf l
decreasing_by
  all_goals simp_wf
  all_goals first
    | omega
    | (have h := RepoTree.sizeOf_subs_lt sub; omega)

/-- Embeds `cmd_sync` (src/main.rs lines 37-94) after config loading: sync the
root repository (the `?` operator aborting the whole run on error), then, when
`recursive`, run the submodule loop over the discovered sub-repositories.
(The configured-but-missing warnings emitted before the loop affect neither
the visited set nor the result.)  Returns the visited sub-repository paths
and the error, if any. -/
def cmdSync (root : RepoTree) (cfg : GemoteConfig) (dryRun recursive : Bool) :
    List String × Option GitError :=
  match (syncOneRepo cfg root dryRun).2.2.2 with
  | some e => ([], some e)
  | none =>
    if recursive then syncSubsList dryRun root.subs cfg.submodules
    else ([], none)

/-! ### Basic lemmas about the diff passes -/

theorem diffOne_eq_nil_iff (locals : List (String × RemoteInfo))
    (p : String × RemoteConfig) :
    diffOne locals p = [] ↔
      ∃ ri, lookupKey p.1 locals = some ri ∧
        ri.url = p.2.url ∧ ri.push_url = p.2.push_url := by
  unfold diffOne
  cases h : lookupKey p.1 locals with
  | none => simp
  | some lr =>
    simp only [List.append_eq_nil, Option.some.injEq]
    constructor
    · rintro ⟨h1, h2⟩
      refine ⟨lr, rfl, ?_, ?_⟩
      · by_contra hne; simp [hne] at h1
      · by_contra hne; simp [hne] at h2
    · rintro ⟨ri, hri, hu, hp⟩
      subst hri
      simp [hu, hp]

theorem diffExtra_fst_eq_nil_iff (rs : List (String × RemoteConfig))
    (policy : ExtraRemotes) (n : String) :
    (diffExtra rs policy n).1 = [] ↔
      (containsKey n rs = true ∨ policy ≠ ExtraRemotes.Remove) := by
  unfold diffExtra
  by_cases h : containsKey n rs
  · simp [h]
  · cases policy <;> simp [h]

theorem diffPass1_eq_nil_iff (cfg : GemoteConfig)
    (locals : List (String × RemoteInfo)) :
    diffPass1 cfg locals = [] ↔
      ∀ p ∈ cfg.remotes, ∃ ri, lookupKey p.1 locals = some ri ∧
        ri.url = p.2.url ∧ ri.push_url = p.2.push_url := by
  unfold diffPass1
  rw [List.flatten_eq_nil_iff]
  constructor
  · intro h p hp
    exact (diffOne_eq_nil_iff locals p).mp (h _ (List.mem_map_of_mem _ hp))
  · intro h l hl
    obtain ⟨p, hp, rfl⟩ := List.mem_map.mp hl
    exact (diffOne_eq_nil_iff locals p).mpr (h p hp)

theorem diffPass2_eq_nil_iff (cfg : GemoteConfig)
    (locals : List (String × RemoteInfo)) :
    diffPass2 cfg locals = [] ↔
      ∀ q ∈ locals, containsKey q.1 cfg.remotes = true ∨
        cfg.settings.extra_remotes ≠ ExtraRemotes.Remove := by
  unfold diffPass2
  rw [List.flatten_eq_nil_iff]
  constructor
  · intro h q hq
    exact (diffExtra_fst_eq_nil_iff _ _ _).mp (h _ (List.mem_map_of_mem _ hq))
  · intro h l hl
    obtain ⟨q, hq, rfl⟩ := List.mem_map.mp hl
    exact (diffExtra_fst_eq_nil_iff _ _ _).mpr (h q hq)

theorem diffOne_name {locals : List (String × RemoteInfo)} {p : String × RemoteConfig}
    {a : SyncAction} (h : a ∈ diffOne locals p) :
    a.name = p.1 ∧ a.isRemove = false := by
  unfold diffOne at h
  cases hl : lookupKey p.1 locals with
  | none =>
    rw [hl] at h; simp only [List.mem_singleton] at h
    subst h; exact ⟨rfl, rfl⟩
  | some lr =>
    rw [hl, List.mem_append] at h
    rcases h with h | h <;> split_ifs at h <;>
      simp only [List.mem_singleton, List.not_mem_nil] at h <;>
      (subst h; exact ⟨rfl, rfl⟩)

theorem diffExtra_fst_cases (rs : List (String × RemoteConfig))
    (policy : ExtraRemotes) (n : String) :
    (diffExtra rs policy n).1 = [] ∨
      (diffExtra rs policy n).1 = [SyncAction.Remove n] := by
  unfold diffExtra
  split_ifs <;> cases policy <;> simp

theorem diffExtra_mem {rs : List (String × RemoteConfig)} {policy : ExtraRemotes}
    {n : String} {a : SyncAction} (h : a ∈ (diffExtra rs policy n).1) :
    a = SyncAction.Remove n := by
  rcases diffExtra_fst_cases rs policy n with hc | hc <;> rw [hc] at h <;>
    simp only [List.mem_singleton, List.not_mem_nil] at h
  exact h

/-- Recognizes an `UpdateUrl` action for remote `n`. -/
def isUpdateUrlFor (n : String) : SyncAction → Bool
  | .UpdateUrl m _ _ => m == n
  | _ => false

/-- Recognizes an `UpdatePushUrl` action for remote `n`. -/
def isUpdatePushUrlFor (n : String) : SyncAction → Bool
  | .UpdatePushUrl m _ _ => m == n
  | _ => false

theorem isUpdateUrlFor_name {n : String} {a : SyncAction}
    (h : isUpdateUrlFor n a = true) : a.name = n := by
  cases a <;> simp [isUpdateUrlFor] at h
  exact h

theorem isUpdatePushUrlFor_name {n : String} {a : SyncAction}
    (h : isUpdatePushUrlFor n a = true) : a.name = n := by
  cases a <;> simp [isUpdatePushUrlFor] at h
  exact h

theorem countP_diffOne_ne {locals : List (String × RemoteInfo)}
    {p : String × RemoteConfig} {n : String} (hne : p.1 ≠ n) :
    (diffOne locals p).countP (isUpdateUrlFor n) = 0 ∧
    (diffOne locals p).countP (isUpdatePushUrlFor n) = 0 := by
  constructor <;> rw [List.countP_eq_zero] <;> intro a ha hpa
  · exact hne (((diffOne_name ha).1).symm.trans (isUpdateUrlFor_name hpa))
  · exact hne (((diffOne_name ha).1).symm.trans (isUpdatePushUrlFor_name hpa))

theorem countP_diffOne_self {locals : List (String × RemoteInfo)}
    {n : String} {rc : RemoteConfig} {ri : RemoteInfo}
    (hlk : lookupKey n locals = some ri) :
    (diffOne locals (n, rc)).countP (isUpdateUrlFor n) =
      (if ri.url = rc.url then 0 else 1) ∧
    (diffOne locals (n, rc)).countP (isUpdatePushUrlFor n) =
      (if ri.push_url = rc.push_url then 0 else 1) ∧
    (ri.url ≠ rc.url →
      SyncAction.UpdateUrl n ri.url rc.url ∈ diffOne locals (n, rc)) ∧
    (ri.push_url ≠ rc.push_url →
      SyncAction.UpdatePushUrl n ri.push_url rc.push_url ∈ diffOne locals (n, rc)) := by
  unfold diffOne
  simp only [hlk]
  by_cases h1 : ri.url = rc.url <;> by_cases h2 : ri.push_url = rc.push_url <;>
    simp [h1, h2, isUpdateUrlFor, isUpdatePushUrlFor]

theorem countP_diffOne_blocks_zero {locals : List (String × RemoteInfo)}
    {n : String} {rs : List (String × RemoteConfig)}
    (h : ∀ q ∈ rs, q.1 ≠ n) :
    ((rs.map (diffOne locals)).flatten.countP (isUpdateUrlFor n) = 0 ∧
     (rs.map (diffOne locals)).flatten.countP (isUpdatePushUrlFor n) = 0) := by
  constructor <;> rw [List.countP_eq_zero] <;> intro a ha hpa <;>
    obtain ⟨l, hl, hal⟩ := List.mem_flatten.mp ha <;>
    obtain ⟨q, hq, rfl⟩ := List.mem_map.mp hl
  · exact h q hq (((diffOne_name hal).1).symm.trans (isUpdateUrlFor_name hpa))
  · exact h q hq (((diffOne_name hal).1).symm.trans (isUpdatePushUrlFor_name hpa))

theorem countP_diffPass2_zero (cfg : GemoteConfig)
    (locals : List (String × RemoteInfo)) (n : String) :
    (diffPass2 cfg locals).countP (isUpdateUrlFor n) = 0 ∧
    (diffPass2 cfg locals).countP (isUpdatePushUrlFor n) = 0 := by
  constructor <;> rw [List.countP_eq_zero] <;> intro a ha hpa <;>
    obtain ⟨l, hl, hal⟩ := List.mem_flatten.mp ha <;>
    obtain ⟨q, hq, rfl⟩ := List.mem_map.mp hl <;>
    rw [diffExtra_mem hal] at hpa <;> exact absurd hpa (by simp [isUpdateUrlFor, isUpdatePushUrlFor])

theorem countP_diffPass1 {locals : List (String × RemoteInfo)}
    {n : String} {rc : RemoteConfig} {ri : RemoteInfo}
    (hlk : lookupKey n locals = some ri) :
    ∀ rs : List (String × RemoteConfig),
      List.Pairwise (fun p q => p.1 ≠ q.1) rs → (n, rc) ∈ rs →
      ((rs.map (diffOne locals)).flatten.countP (isUpdateUrlFor n) =
          (if ri.url = rc.url then 0 else 1) ∧
       (rs.map (diffOne locals)).flatten.countP (isUpdatePushUrlFor n) =
          (if ri.push_url = rc.push_url then 0 else 1) ∧
       (ri.url ≠ rc.url →
         SyncAction.UpdateUrl n ri.url rc.url ∈ (rs.map (diffOne locals)).flatten) ∧
       (ri.push_url ≠ rc.push_url →
         SyncAction.UpdatePushUrl n ri.push_url rc.push_url ∈
           (rs.map (diffOne locals)).flatten)) := by
  intro rs
  induction rs with
  | nil => intro _ hmem; exact absurd hmem (List.not_mem_nil _)
  | cons p rest ih =>
    intro hpw hmem
    have hpw' := List.pairwise_cons.mp hpw
    rcases List.mem_cons.mp hmem with heq | hmemr
    · subst heq
      have hrest : ∀ q ∈ rest, q.1 ≠ n :=
        fun q hq => (hpw'.1 q hq).symm
      have hz := @countP_diffOne_blocks_zero locals n rest hrest
      have hs := @countP_diffOne_self locals n rc ri hlk
      simp only [List.map_cons, List.flatten_cons, List.countP_append,
        List.mem_append]
      refine ⟨?_, ?_, ?_, ?_⟩
      · rw [hs.1, hz.1]; omega
      · rw [hs.2.1, hz.2]; omega
      · intro hne; exact Or.inl (hs.2.2.1 hne)
      · intro hne; exact Or.inl (hs.2.2.2 hne)
    · have hpn : p.1 ≠ n := hpw'.1 (n, rc) hmemr
      have hz := @countP_diffOne_ne locals p n hpn
      have hr := ih hpw'.2 hmemr
      simp only [List.map_cons, List.flatten_cons, List.countP_append,
        List.mem_append]
      refine ⟨?_, ?_, ?_, ?_⟩
      · rw [hz.1, hr.1]; omega
      · rw [hz.2, hr.2.1]; omega
      · intro hne; exact Or.inr (hr.2.2.1 hne)
      · intro hne; exact Or.inr (hr.2.2.2 hne)

theorem lookupKey_eq_none_iff {α : Type} (n : String) (l : List (String × α)) :
    lookupKey n l = none ↔ ∀ p ∈ l, p.1 ≠ n := by
  induction l with
  | nil => simp [lookupKey]
  | cons p rest ih =>
    obtain ⟨m, v⟩ := p
    by_cases h : m = n
    · simp [lookupKey, h]
    · simp [lookupKey, h, ih]

theorem containsKey_eq_false_iff {α : Type} (n : String) (l : List (String × α)) :
    containsKey n l = false ↔ ∀ p ∈ l, p.1 ≠ n := by
  rw [containsKey, ← lookupKey_eq_none_iff n l]
  cases lookupKey n l <;> simp

theorem filter_name_eq_nil {n : String} {l : List SyncAction}
    (h : ∀ a ∈ l, a.name ≠ n) :
    l.filter (fun a => a.name == n) = [] := by
  rw [List.filter_eq_nil_iff]
  intro a ha
  simp [h a ha]

theorem diffExtra_warn_fst (rs : List (String × RemoteConfig)) (m : String) :
    (diffExtra rs ExtraRemotes.Warn m).1 = [] := by
  unfold diffExtra
  split_ifs <;> rfl

theorem diffExtra_snd_ignore_remove (rs : List (String × RemoteConfig))
    (m : String) (pol : ExtraRemotes) (hpol : pol ≠ ExtraRemotes.Warn) :
    (diffExtra rs pol m).2 = [] := by
  unfold diffExtra
  split_ifs <;> cases pol <;> first | rfl | exact absurd rfl hpol

theorem diffExtra_snd_mem {rs : List (String × RemoteConfig)} {pol : ExtraRemotes}
    {m : String} {d : Diag} (h : d ∈ (diffExtra rs pol m).2) :
    d = Diag.extraRemoteWarn m := by
  unfold diffExtra at h
  split_ifs at h <;> cases pol <;>
    simp only [List.mem_singleton, List.not_mem_nil] at h
  exact h

theorem filter_pass2_remove {rs : List (String × RemoteConfig)}
    {n : String} {ri : RemoteInfo}
    (habs : containsKey n rs = false) :
    ∀ ls : List (String × RemoteInfo),
      List.Pairwise (fun p q : String × RemoteInfo => p.1 ≠ q.1) ls →
      (n, ri) ∈ ls →
      ((ls.map (fun nv => (diffExtra rs ExtraRemotes.Remove nv.1).1)).flatten.filter
        (fun a => a.name == n)) = [SyncAction.Remove n] := by
  intro ls
  induction ls with
  | nil => intro _ hmem; exact absurd hmem (List.not_mem_nil _)
  | cons q rest ih =>
    intro hpw hmem
    have hpw' := List.pairwise_cons.mp hpw
    simp only [List.map_cons, List.flatten_cons, List.filter_append]
    rcases List.mem_cons.mp hmem with heq | hmemr
    · subst heq
      have hhead : (diffExtra rs ExtraRemotes.Remove n).1 = [SyncAction.Remove n] := by
        unfold diffExtra
        rw [habs]
        rfl
      have hrest : ((rest.map
          (fun nv => (diffExtra rs ExtraRemotes.Remove nv.1).1)).flatten.filter
          (fun a => a.name == n)) = [] := by
        apply filter_name_eq_nil
        intro a ha
        obtain ⟨l, hl, hal⟩ := List.mem_flatten.mp ha
        obtain ⟨q, hq, rfl⟩ := List.mem_map.mp hl
        rw [diffExtra_mem hal]
        exact (hpw'.1 q hq).symm
      rw [hhead, hrest]
      simp [SyncAction.name]
    · have hqn : q.1 ≠ n := hpw'.1 (n, ri) hmemr
      have hhead : ((diffExtra rs ExtraRemotes.Remove q.1).1.filter
          (fun a => a.name == n)) = [] := by
        apply filter_name_eq_nil
        intro a ha
        rw [diffExtra_mem ha]
        exact hqn
      rw [hhead, ih hpw'.2 hmemr]
      rfl

/-! ### Claim theorems -/

/-- C1: `diff(config, L)` returns the empty action sequence iff every desired
remote exists in `L` with equal url and equal optional push_url, and no local
key absent from the desired mapping triggers a `Remove` under the active
extra-remote policy.  (Diffing a reconciled state against itself is the
right-to-left direction.) -/
theorem compute_diff_empty_iff (cfg : GemoteConfig)
    (locals : List (String × RemoteInfo)) :
    (computeDiff cfg locals).1 = [] ↔
      ((∀ p ∈ cfg.remotes, ∃ ri, lookupKey p.1 locals = some ri ∧
          ri.url = p.2.url ∧ ri.push_url = p.2.push_url) ∧
       (∀ q ∈ locals, containsKey q.1 cfg.remotes = true ∨
          cfg.settings.extra_remotes ≠ ExtraRemotes.Remove)) := by
  show diffPass1 cfg locals ++ diffPass2 cfg locals = [] ↔ _
  rw [List.append_eq_nil, diffPass1_eq_nil_iff, diffPass2_eq_nil_iff]

/-- C2: given the BTreeMap invariant on both maps (keys strictly ascending),
the diff is the first-loop actions (Add/UpdateUrl/UpdatePushUrl, remote names
ascending, never Remove) followed by the second-loop actions (all Remove,
names strictly ascending).  The output order is fully determined by the
inputs since `computeDiff` is a pure function. -/
theorem compute_diff_ordering (cfg : GemoteConfig)
    (locals : List (String × RemoteInfo))
    (hc : List.Pairwise (· < ·) (cfg.remotes.map Prod.fst))
    (hl : List.Pairwise (· < ·) (locals.map Prod.fst)) :
    (computeDiff cfg locals).1 = diffPass1 cfg locals ++ diffPass2 cfg locals ∧
    (∀ a ∈ diffPass1 cfg locals, a.isRemove = false) ∧
    List.Pairwise (fun a b : SyncAction => a.name ≤ b.name)
      (diffPass1 cfg locals) ∧
    (∀ a ∈ diffPass2 cfg locals, a.isRemove = true) ∧
    List.Pairwise (fun a b : SyncAction => a.name < b.name)
      (diffPass2 cfg locals) := by
  refine ⟨rfl, ?_, ?_, ?_, ?_⟩
  · intro a ha
    obtain ⟨l, hlmem, hal⟩ := List.mem_flatten.mp ha
    obtain ⟨p, hp, rfl⟩ := List.mem_map.mp hlmem
    exact (diffOne_name hal).2
  · unfold diffPass1
    rw [List.pairwise_flatten]
    constructor
    · intro s hs
      obtain ⟨p, hp, rfl⟩ := List.mem_map.mp hs
      refine List.pairwise_of_forall_mem_list ?_
      intro a ha b hb
      rw [(diffOne_name ha).1, (diffOne_name hb).1]
    · rw [List.pairwise_map]
      refine (List.pairwise_map.mp hc).imp ?_
      intro p q hpq x hx y hy
      rw [(diffOne_name hx).1, (diffOne_name hy).1]
      exact le_of_lt hpq
  · intro a ha
    obtain ⟨l, hlmem, hal⟩ := List.mem_flatten.mp ha
    obtain ⟨q, hq, rfl⟩ := List.mem_map.mp hlmem
    rw [diffExtra_mem hal]
    rfl
  · unfold diffPass2
    rw [List.pairwise_flatten]
    constructor
    · intro s hs
      obtain ⟨q, hq, rfl⟩ := List.mem_map.mp hs
      rcases diffExtra_fst_cases cfg.remotes cfg.settings.extra_remotes q.1
        with hcase | hcase <;> rw [hcase] <;> simp
    · rw [List.pairwise_map]
      refine (List.pairwise_map.mp hl).imp ?_
      intro p q hpq x hx y hy
      rw [diffExtra_mem hx, diffExtra_mem hy]
      exact hpq

/-- C3: for a desired remote present in the local map, url and push_url are
compared independently: the diff contains one `UpdateUrl` action for it iff
the urls differ and one `UpdatePushUrl` action iff the push_urls differ (as
`Option` values, covering none/some in all combinations), each carrying the
old and new value; both can appear in the same pass as two separate actions. -/
theorem compute_diff_url_push_independent (cfg : GemoteConfig)
    (locals : List (String × RemoteInfo)) (n : String) (rc : RemoteConfig)
    (ri : RemoteInfo)
    (hc : List.Pairwise (· < ·) (cfg.remotes.map Prod.fst))
    (hmem : (n, rc) ∈ cfg.remotes)
    (hlk : lookupKey n locals = some ri) :
    ((computeDiff cfg locals).1.countP (isUpdateUrlFor n) =
        if ri.url = rc.url then 0 else 1) ∧
    ((computeDiff cfg locals).1.countP (isUpdatePushUrlFor n) =
        if ri.push_url = rc.push_url then 0 else 1) ∧
    (ri.url ≠ rc.url →
      SyncAction.UpdateUrl n ri.url rc.url ∈ (computeDiff cfg locals).1) ∧
    (ri.push_url ≠ rc.push_url →
      SyncAction.UpdatePushUrl n ri.push_url rc.push_url ∈
        (computeDiff cfg locals).1) := by
  have hne : List.Pairwise (fun p q : String × RemoteConfig => p.1 ≠ q.1)
      cfg.remotes :=
    (List.pairwise_map.mp hc).imp fun h => ne_of_lt h
  have h1 := countP_diffPass1 hlk cfg.remotes hne hmem
  have h2 := countP_diffPass2_zero cfg locals n
  show ((diffPass1 cfg locals ++ diffPass2 cfg locals).countP _ = _) ∧
    ((diffPass1 cfg locals ++ diffPass2 cfg locals).countP _ = _) ∧ _ ∧ _
  simp only [List.countP_append, List.mem_append]
  have hp1 : diffPass1 cfg locals = (cfg.remotes.map (diffOne locals)).flatten := rfl
  rw [hp1, h1.1, h1.2.1, h2.1, h2.2]
  refine ⟨by omega, by omega, ?_, ?_⟩
  · intro hu
    show _ ∈ diffPass1 cfg locals ++ diffPass2 cfg locals
    rw [hp1]
    exact List.mem_append.mpr (Or.inl (h1.2.2.1 hu))
  · intro hp
    show _ ∈ diffPass1 cfg locals ++ diffPass2 cfg locals
    rw [hp1]
    exact List.mem_append.mpr (Or.inl (h1.2.2.2 hp))

/-- Witness for C3 at the spec's own example: desired `{url: "A", push_url: "P"}`,
local `{url: "B", push_url: "P"}` for remote `origin`. -/
theorem compute_diff_url_push_independent_witness :
    List.Pairwise (· < ·)
      ((GemoteConfig.mk ⟨.Ignore⟩ [("origin", ⟨"A", some "P"⟩)] []).remotes.map
        Prod.fst) ∧
    ("origin", (⟨"A", some "P"⟩ : RemoteConfig)) ∈
      (GemoteConfig.mk ⟨.Ignore⟩ [("origin", ⟨"A", some "P"⟩)] []).remotes ∧
    lookupKey "origin" [("origin", (⟨"B", some "P"⟩ : RemoteInfo))] =
      some ⟨"B", some "P"⟩ ∧
    ((computeDiff (GemoteConfig.mk ⟨.Ignore⟩ [("origin", ⟨"A", some "P"⟩)] [])
        [("origin", ⟨"B", some "P"⟩)]).1.countP (isUpdateUrlFor "origin") =
        if ("B" : String) = "A" then 0 else 1) := by
  refine ⟨by simp [GemoteConfig.remotes], by simp [GemoteConfig.remotes],
    by decide, ?_⟩
  exact (compute_diff_url_push_independent
    (GemoteConfig.mk ⟨.Ignore⟩ [("origin", ⟨"A", some "P"⟩)] [])
    [("origin", ⟨"B", some "P"⟩)] "origin" ⟨"A", some "P"⟩ ⟨"B", some "P"⟩
    (by simp [GemoteConfig.remotes]) (by simp [GemoteConfig.remotes])
    (by decide)).1

/-- C4: for a local remote `n` absent from the desired mapping, the diff
outcome is gated solely by the extra-remote policy: under `Ignore` no action
and no diagnostic concerns `n`; under `Warn` no action concerns `n` but the
diagnostic for `n` is emitted on the side channel; under `Remove` the actions
concerning `n` are exactly `[Remove n]`. -/
theorem compute_diff_policy_gating (cfg : GemoteConfig)
    (locals : List (String × RemoteInfo)) (n : String) (ri : RemoteInfo)
    (hmem : (n, ri) ∈ locals)
    (habs : containsKey n cfg.remotes = false)
    (hl : List.Pairwise (· < ·) (locals.map Prod.fst)) :
    (cfg.settings.extra_remotes = ExtraRemotes.Ignore →
      (computeDiff cfg locals).1.filter (fun a => a.name == n) = [] ∧
      (computeDiff cfg locals).2 = []) ∧
    (cfg.settings.extra_remotes = ExtraRemotes.Warn →
      (computeDiff cfg locals).1.filter (fun a => a.name == n) = [] ∧
      Diag.extraRemoteWarn n ∈ (computeDiff cfg locals).2) ∧
    (cfg.settings.extra_remotes = ExtraRemotes.Remove →
      (computeDiff cfg locals).1.filter (fun a => a.name == n) =
        [SyncAction.Remove n]) := by
  have hkeys : ∀ p ∈ cfg.remotes, p.1 ≠ n :=
    (containsKey_eq_false_iff n cfg.remotes).mp habs
  have hpass1 : (diffPass1 cfg locals).filter (fun a => a.name == n) = [] := by
    apply filter_name_eq_nil
    intro a ha
    obtain ⟨l, hlm, hal⟩ := List.mem_flatten.mp ha
    obtain ⟨p, hp, rfl⟩ := List.mem_map.mp hlm
    rw [(diffOne_name hal).1]
    exact hkeys p hp
  have hne : List.Pairwise (fun p q : String × RemoteInfo => p.1 ≠ q.1) locals :=
    (List.pairwise_map.mp hl).imp fun h => ne_of_lt h
  have hshow : (computeDiff cfg locals).1 =
      diffPass1 cfg locals ++ diffPass2 cfg locals := rfl
  refine ⟨?_, ?_, ?_⟩
  · intro hpol
    constructor
    · rw [hshow, List.filter_append, hpass1]
      have : (diffPass2 cfg locals).filter (fun a => a.name == n) = [] := by
        apply filter_name_eq_nil
        intro a ha
        obtain ⟨l, hlm, hal⟩ := List.mem_flatten.mp ha
        obtain ⟨q, hq, rfl⟩ := List.mem_map.mp hlm
        rw [hpol] at hal
        rw [(diffExtra_fst_eq_nil_iff _ _ _).mpr (Or.inr (by simp))] at hal
        exact absurd hal (List.not_mem_nil a)
      rw [this]
      rfl
    · show diffDiags cfg locals = []
      unfold diffDiags
      rw [List.flatten_eq_nil_iff]
      intro l hlm
      obtain ⟨q, hq, rfl⟩ := List.mem_map.mp hlm
      rw [hpol]
      exact diffExtra_snd_ignore_remove _ _ _ (by simp)
  · intro hpol
    constructor
    · rw [hshow, List.filter_append, hpass1]
      have : diffPass2 cfg locals = [] := by
        unfold diffPass2
        rw [List.flatten_eq_nil_iff]
        intro l hlm
        obtain ⟨q, hq, rfl⟩ := List.mem_map.mp hlm
        rw [hpol]
        exact diffExtra_warn_fst _ _
      rw [this]
      rfl
    · show Diag.extraRemoteWarn n ∈ diffDiags cfg locals
      unfold diffDiags
      rw [List.mem_flatten]
      refine ⟨(diffExtra cfg.remotes cfg.settings.extra_remotes n).2,
        List.mem_map_of_mem _ hmem, ?_⟩
      rw [hpol]
      unfold diffExtra
      rw [habs]
      simp
  · intro hpol
    rw [hshow, List.filter_append, hpass1]
    have : (diffPass2 cfg locals).filter (fun a => a.name == n) =
        [SyncAction.Remove n] := by
      unfold diffPass2
      rw [hpol]
      exact filter_pass2_remove habs locals hne hmem
    rw [this]
    rfl

/-- Witness for C4: single local remote `extra` with an empty config under the
`Remove` policy. -/
theorem compute_diff_policy_gating_witness :
    (("extra", (⟨"https://x", none⟩ : RemoteInfo)) ∈
      [("extra", (⟨"https://x", none⟩ : RemoteInfo))]) ∧
    containsKey "extra"
      (GemoteConfig.mk ⟨.Remove⟩ [] []).remotes = false ∧
    ((GemoteConfig.mk ⟨.Remove⟩ [] []).settings.extra_remotes =
        ExtraRemotes.Remove →
      (computeDiff (GemoteConfig.mk ⟨.Remove⟩ [] [])
          [("extra", ⟨"https://x", none⟩)]).1.filter
          (fun a => a.name == "extra") = [SyncAction.Remove "extra"]) := by
  refine ⟨by simp, by decide, ?_⟩
  exact (compute_diff_policy_gating (GemoteConfig.mk ⟨.Remove⟩ [] [])
    [("extra", ⟨"https://x", none⟩)] "extra" ⟨"https://x", none⟩
    (by simp) (by decide) (by simp)).2.2

/-- A concrete config used by witnesses: remotes `origin` (url and push_url
both differing from the local state) and `upstream` (absent locally), with the
`Remove` extra-remote policy. -/
def exCfg : GemoteConfig :=
  .mk ⟨.Remove⟩
    [("origin", ⟨"https://new", some "p"⟩), ("upstream", ⟨"https://b", none⟩)] []

/-- A concrete local remote map used by witnesses: `origin` with stale urls and
an extra remote `stale`. -/
def exLocals : List (String × RemoteInfo) :=
  [("origin", ⟨"https://old", none⟩), ("stale", ⟨"https://s", none⟩)]

/-- Witness for C2 at the concrete input `exCfg`, `exLocals`. -/
theorem compute_diff_ordering_witness :
    List.Pairwise (· < ·) (exCfg.remotes.map Prod.fst) ∧
    List.Pairwise (· < ·) (exLocals.map Prod.fst) ∧
    ((computeDiff exCfg exLocals).1 =
        diffPass1 exCfg exLocals ++ diffPass2 exCfg exLocals ∧
      (∀ a ∈ diffPass1 exCfg exLocals, a.isRemove = false) ∧
      List.Pairwise (fun a b : SyncAction => a.name ≤ b.name)
        (diffPass1 exCfg exLocals) ∧
      (∀ a ∈ diffPass2 exCfg exLocals, a.isRemove = true) ∧
      List.Pairwise (fun a b : SyncAction => a.name < b.name)
        (diffPass2 exCfg exLocals)) := by
  have h1 : List.Pairwise (· < ·) (exCfg.remotes.map Prod.fst) := by
    norm_num [exCfg, GemoteConfig.remotes, List.pairwise_cons,
      String.lt_iff_toList_lt]
    decide
  have h2 : List.Pairwise (· < ·) (exLocals.map Prod.fst) := by
    norm_num [exLocals, List.pairwise_cons, String.lt_iff_toList_lt]
    decide
  exact ⟨h1, h2, compute_diff_ordering exCfg exLocals h1 h2⟩

/-- C5: `apply` is strictly sequential and non-transactional: if the actions
are a prefix `l₁` that succeeds, a failing action `a`, and a suffix `l₂`, then
the resulting repository state is exactly the state after committing `l₁`, the
single returned error is the one produced by `a` on that state, and the result
does not depend on `l₂` (the suffix is never attempted, and nothing is rolled
back). -/
theorem apply_actions_non_transactional (st st₁ : RepoState)
    (l₁ : List SyncAction) (a : SyncAction) (l₂ : List SyncAction) (e : GitError)
    (hok : applyOkList st l₁ = some st₁)
    (hfail : applyAction st₁ a = .error e) :
    applyActions st (l₁ ++ a :: l₂) = (st₁, some e) := by
  induction l₁ generalizing st with
  | nil =>
    simp only [applyOkList, Option.some.injEq] at hok
    subst hok
    simp [applyActions, hfail]
  | cons b rest ih =>
    unfold applyOkList at hok
    cases hb : applyAction st b with
    | ok st' =>
      rw [hb] at hok
      rw [List.cons_append]
      unfold applyActions
      rw [hb]
      exact ih st' hok
    | error e' =>
      rw [hb] at hok
      exact absurd hok (by simp)

/-- Witness for C5: local state already has `origin`; the empty prefix
succeeds, adding `origin` again fails with `remoteExists`, and the `Remove`
in the suffix is never attempted. -/
theorem apply_actions_non_transactional_witness :
    applyOkList [("origin", ⟨"https://a", none⟩)] [] =
      some [("origin", ⟨"https://a", none⟩)] ∧
    applyAction [("origin", ⟨"https://a", none⟩)]
      (SyncAction.Add "origin" "https://b" none) =
      .error (.remoteExists "origin") ∧
    applyActions [("origin", ⟨"https://a", none⟩)]
      ([] ++ SyncAction.Add "origin" "https://b" none ::
        [SyncAction.Remove "gone"]) =
      ([("origin", ⟨"https://a", none⟩)], some (.remoteExists "origin")) :=
  ⟨rfl, rfl,
   apply_actions_non_transactional [("origin", ⟨"https://a", none⟩)]
     [("origin", ⟨"https://a", none⟩)] []
     (SyncAction.Add "origin" "https://b" none) [SyncAction.Remove "gone"]
     (.remoteExists "origin") rfl rfl⟩

/-- C9: with `dry_run` set, a reconciliation pass performs no repository
mutation — the repository state is returned unchanged — while snapshotting
and diffing still execute fully: the computed actions and the emitted
diagnostics are identical to those of a real (non-dry) run on the same
inputs. -/
theorem sync_one_repo_dry_run (cfg : GemoteConfig) (repo : RepoTree) :
    (syncOneRepo cfg repo true).1 = repo.live ∧
    (syncOneRepo cfg repo true).2.1 = (syncOneRepo cfg repo false).2.1 ∧
    (syncOneRepo cfg repo true).2.2.1 = (syncOneRepo cfg repo false).2.2.1 := by
  unfold syncOneRepo
  cases repo.listRemotes with
  | error e => exact ⟨rfl, rfl, rfl⟩
  | ok locals => by_cases h : (computeDiff cfg locals).1 = [] <;> simp [h]

/-- Sub-repository `a` of the C8 scenario: the snapshot saw no remotes, but at
apply time `origin` already exists (the snapshot-to-apply window), so the
`Add` emitted by the diff fails. -/
def exSubA : RepoTree := .mk (.ok []) [("origin", ⟨"https://live", none⟩)] []

/-- Sub-repository `b` of the C8 scenario: healthy, nothing to do. -/
def exSubB : RepoTree := .mk (.ok []) [] []

/-- Root repository of the C8 scenario, with discovered subs `a` and `b`. -/
def exRoot8 : RepoTree := .mk (.ok []) [] [("a", exSubA), ("b", exSubB)]

/-- Config tree of the C8 scenario: sections for both `a` and `b`. -/
def exCfg8 : GemoteConfig :=
  .mk ⟨.Ignore⟩ []
    [("a", .mk ⟨.Ignore⟩ [("origin", ⟨"https://a", none⟩)] []),
     ("b", .mk ⟨.Ignore⟩ [] [])]

/-- Counterexample to C8 as stated: sub-repository `a` fails its apply step,
and although sibling `b` is discovered, configured, and would reconcile
without error, the recursive sync visits only `a` — the error propagates
through the loop and `b` is never visited. -/
theorem cmd_sync_sibling_not_visited :
    cmdSync exRoot8 exCfg8 false true =
      (["a"], some (.remoteExists "origin")) ∧
    ("b", exSubB) ∈ exRoot8.subs ∧
    lookupKey "b" exCfg8.submodules = some (.mk ⟨.Ignore⟩ [] []) ∧
    (syncOneRepo (.mk ⟨.Ignore⟩ [] []) exSubB false).2.2.2 = none ∧
    "b" ∉ (cmdSync exRoot8 exCfg8 false true).1 := by
  have heval : cmdSync exRoot8 exCfg8 false true =
      (["a"], some (.remoteExists "origin")) := by
    simp [cmdSync, syncSubsList, syncOneRepo, exRoot8, exCfg8, exSubA,
      RepoTree.listRemotes, RepoTree.live, RepoTree.subs,
      GemoteConfig.settings, GemoteConfig.remotes, GemoteConfig.submodules,
      computeDiff, diffPass1, diffPass2, diffDiags, diffOne, diffExtra,
      lookupKey, containsKey, applyActions, applyAction, addRemote]
  refine ⟨heval, by simp [exRoot8, RepoTree.subs], ?_, ?_, ?_⟩
  · simp [exCfg8, GemoteConfig.submodules, lookupKey]
  · simp [syncOneRepo, exSubB, RepoTree.listRemotes, RepoTree.live,
      computeDiff, diffPass1, diffPass2, diffDiags,
      GemoteConfig.remotes, GemoteConfig.settings]
  · rw [heval]
    simp

/-- C8 amended: one node's reconciliation failure aborts the whole submodule
loop, not just the descent below that node — the failing node is the last
visited, the remaining siblings are never visited, and the error propagates
to the orchestrator's caller.  Only discovery-time open failures and
structural mismatches leave siblings unaffected. -/
theorem sync_subs_abort (dryRun : Bool) (p : String) (sub : RepoTree)
    (rest : List (String × RepoTree)) (cfgSubs : List (String × GemoteConfig))
    (subCfg : GemoteConfig) (e : GitError)
    (hlk : lookupKey p cfgSubs = some subCfg)
    (herr : (syncOneRepo subCfg sub dryRun).2.2.2 = some e) :
    syncSubsList dryRun ((p, sub) :: rest) cfgSubs = ([p], some e) := by
  rw [syncSubsList, hlk]
  dsimp only
  rw [herr]

/-- Witness for the amended C8 theorem at the concrete C8 scenario: the
failing node `a` is followed by an arbitrary sibling list that is never
visited. -/
theorem sync_subs_abort_witness :
    lookupKey "a" exCfg8.submodules =
      some (.mk ⟨.Ignore⟩ [("origin", ⟨"https://a", none⟩)] []) ∧
    (syncOneRepo (.mk ⟨.Ignore⟩ [("origin", ⟨"https://a", none⟩)] [])
      exSubA false).2.2.2 = some (.remoteExists "origin") ∧
    syncSubsList false [("a", exSubA), ("b", exSubB)] exCfg8.submodules =
      (["a"], some (.remoteExists "origin")) := by
  have h1 : lookupKey "a" exCfg8.submodules =
      some (.mk ⟨.Ignore⟩ [("origin", ⟨"https://a", none⟩)] []) := by
    simp [exCfg8, GemoteConfig.submodules, lookupKey]
  have h2 : (syncOneRepo (.mk ⟨.Ignore⟩ [("origin", ⟨"https://a", none⟩)] [])
      exSubA false).2.2.2 = some (.remoteExists "origin") := by
    simp [syncOneRepo, exSubA, RepoTree.listRemotes, RepoTree.live,
      computeDiff, diffPass1, diffPass2, diffDiags, diffOne, diffExtra,
      GemoteConfig.remotes, GemoteConfig.settings,
      lookupKey, containsKey, applyActions, applyAction, addRemote]
  exact ⟨h1, h2, sync_subs_abort false "a" exSubA [("b", exSubB)]
    exCfg8.submodules _ _ h1 h2⟩

theorem discoverRec_prune (pre : List String) (entries : List FsEntry)
    (known : List String) :
    discoverRec pre entries known = discoverRec pre (pruneList entries) known := by
  match entries with
  | [] => rfl
  | .file n :: rest =>
    rw [pruneList, pruneRepo]
    rw [discoverRec, discoverRec]
    exact discoverRec_prune pre rest known
  | .dir n g ok rid cs :: rest =>
    rw [pruneList, pruneRepo]
    rw [discoverRec, discoverRec]
    by_cases hh : isHidden n
    · simp only [hh, if_true]
      exact discoverRec_prune pre rest known
    · simp only [hh, if_false, Bool.false_eq_true]
      by_cases hk : String.intercalate "/" (pre ++ [n]) ∈ known
      · simp only [hk, if_true]
        exact discoverRec_prune pre rest known
      · simp only [hk, if_false]
        cases g with
        | true =>
          simp only [if_true]
          rw [discoverRec_prune pre rest known]
        | false =>
          simp only [if_false, Bool.false_eq_true]
          rw [discoverRec_prune (pre ++ [n]) cs known,
            discoverRec_prune pre rest known]
termination_by sizeOf entries

/-- The outer repository root's entries in the concrete boundary scenario: a
nested repository at `libs/outer` which itself contains a repository at
`sub/inner`. -/
def exOuterEntries : List FsEntry :=
  [.dir "libs" false true 0
     [.dir "outer" true true 1
        [.dir "sub" false true 0 [.dir "inner" true true 2 []]]]]

/-- The entries of the nested repository `libs/outer` itself. -/
def exOuterRepoEntries : List FsEntry :=
  [.dir "sub" false true 0 [.dir "inner" true true 2 []]]

/-- C6: discovery stops at repository boundaries.  In general the scan result
is invariant under emptying the children of every repository-root directory
(nothing inside a discovered repository root is ever visited or returned),
and in the concrete two-level scenario the discovery call on the outer root
returns exactly the outer nested repository — not the repository strictly
inside it — while the discovery call scoped to the inner root returns it. -/
theorem discovery_git_boundary :
    (∀ (pre : List String) (entries : List FsEntry) (known : List String),
       discoverRec pre entries known =
         discoverRec pre (pruneList entries) known) ∧
    discoverNestedRepos exOuterEntries [] = [⟨"libs/outer", 1⟩] ∧
    discoverNestedRepos exOuterRepoEntries [] = [⟨"sub/inner", 2⟩] := by
  refine ⟨discoverRec_prune, ?_, ?_⟩
  · simp [discoverNestedRepos, discoverRec, isHidden, exOuterEntries]
    decide
  · simp [discoverNestedRepos, discoverRec, isHidden, exOuterRepoEntries]
    decide

theorem discoverRec_not_known (pre : List String) (entries : List FsEntry)
    (known : List String) :
    ∀ r ∈ discoverRec pre entries known, r.path ∉ known := by
  match entries with
  | [] =>
    rw [discoverRec]
    intro r hr
    exact absurd hr (List.not_mem_nil r)
  | .file n :: rest =>
    rw [discoverRec]
    exact discoverRec_not_known pre rest known
  | .dir n g ok rid cs :: rest =>
    rw [discoverRec]
    by_cases hh : isHidden n
    · simp only [hh, if_true]
      exact discoverRec_not_known pre rest known
    · simp only [hh, if_false, Bool.false_eq_true]
      by_cases hk : String.intercalate "/" (pre ++ [n]) ∈ known
      · simp only [hk, if_true]
        exact discoverRec_not_known pre rest known
      · simp only [hk, if_false]
        cases g with
        | true =>
          intro r hr
          rcases List.mem_append.mp hr with hr1 | hr2
          · cases ok with
            | true =>
              simp only [if_true, List.mem_singleton] at hr1
              subst hr1
              exact hk
            | false => simp at hr1
          · exact discoverRec_not_known pre rest known r hr2
        | false =>
          simp only [if_false, Bool.false_eq_true]
          intro r hr
          rcases List.mem_append.mp hr with hr1 | hr2
          · exact discoverRec_not_known (pre ++ [n]) cs known r hr1
          · exact discoverRec_not_known pre rest known r hr2
termination_by sizeOf entries

theorem mem_dedupByPath {l : List SubRepoInfo} {seen : List String}
    {x : SubRepoInfo} (h : x ∈ dedupByPath l seen) : x ∈ l := by
  induction l generalizing seen with
  | nil => exact absurd h (List.not_mem_nil x)
  | cons y rest ih =>
    rw [dedupByPath] at h
    split_ifs at h with hy
    · exact List.mem_cons_of_mem y (ih h)
    · rcases List.mem_cons.mp h with rfl | h'
      · exact List.mem_cons_self x rest
      · exact List.mem_cons_of_mem y (ih h')

theorem dedupByPath_nodup (l : List SubRepoInfo) :
    ∀ seen : List String,
      ((dedupByPath l seen).map SubRepoInfo.path).Nodup ∧
      ∀ p ∈ (dedupByPath l seen).map SubRepoInfo.path, p ∉ seen := by
  induction l with
  | nil => intro seen; simp [dedupByPath]
  | cons y rest ih =>
    intro seen
    rw [dedupByPath]
    split_ifs with hy
    · exact ih seen
    · obtain ⟨hnodup, hsub⟩ := ih (y.path :: seen)
      refine ⟨?_, ?_⟩
      · simp only [List.map_cons, List.nodup_cons]
        refine ⟨?_, hnodup⟩
        intro hmem
        exact hsub y.path hmem (List.mem_cons_self _ _)
      · simp only [List.map_cons, List.mem_cons]
        rintro p (rfl | hp)
        · exact hy
        · intro hpseen
          exact hsub p hp (List.mem_cons_of_mem _ hpseen)

theorem dedupByPath_exists {l : List SubRepoInfo} {p : String}
    (hp : p ∈ l.map SubRepoInfo.path) :
    ∀ seen : List String, p ∉ seen →
      ∃ r ∈ dedupByPath l seen, r.path = p := by
  induction l with
  | nil => simp at hp
  | cons y rest ih =>
    intro seen hseen
    rw [dedupByPath]
    simp only [List.map_cons, List.mem_cons] at hp
    split_ifs with hy
    · rcases hp with rfl | hp
      · exact absurd hy hseen
      · exact ih hp seen hseen
    · rcases hp with rfl | hp
      · exact ⟨y, List.mem_cons_self _ _, rfl⟩
      · by_cases hpy : p = y.path
        · subst hpy
          exact ⟨y, List.mem_cons_self _ _, rfl⟩
        · obtain ⟨r, hr, hrp⟩ := ih hp (y.path :: seen)
            (by simp [hseen, hpy])
          exact ⟨r, List.mem_cons_of_mem _ hr, hrp⟩

instance : IsTotal SubRepoInfo (fun a b => a.path ≤ b.path) :=
  ⟨fun a b => le_total a.path b.path⟩

instance : IsTrans SubRepoInfo (fun a b => a.path ≤ b.path) :=
  ⟨fun _ _ _ hab hbc => le_trans hab hbc⟩

/-- C7: a single discovery call returns pairwise-distinct paths in strictly
ascending (lexicographic) order, and a path registered as a submodule is
returned exactly once, by its registered entry — the registered entry wins
any tie with the filesystem scan. -/
theorem collect_all_repos_invariants (subs : List SubRepoInfo)
    (entries : List FsEntry) :
    List.Pairwise (fun a b : SubRepoInfo => a.path < b.path)
      (collectAllRepos subs entries) ∧
    (∀ p, p ∈ subs.map SubRepoInfo.path →
      ∃ r, r ∈ collectAllRepos subs entries ∧ r.path = p ∧ r ∈ subs) := by
  have hperm : List.Perm
      ((dedupByPath (subs ++ discoverNestedRepos entries
        (subs.map SubRepoInfo.path)) []).insertionSort
        (fun a b => a.path ≤ b.path))
      (dedupByPath (subs ++ discoverNestedRepos entries
        (subs.map SubRepoInfo.path)) []) :=
    List.perm_insertionSort _ _
  have hsorted : List.Pairwise (fun a b : SubRepoInfo => a.path ≤ b.path)
      (collectAllRepos subs entries) :=
    List.sorted_insertionSort _ _
  have hnodup : ((collectAllRepos subs entries).map SubRepoInfo.path).Nodup := by
    have h1 := (dedupByPath_nodup (subs ++ discoverNestedRepos entries
      (subs.map SubRepoInfo.path)) []).1
    exact ((hperm.map SubRepoInfo.path).nodup_iff).mpr h1
  have hne : List.Pairwise (fun a b : SubRepoInfo => a.path ≠ b.path)
      (collectAllRepos subs entries) := List.pairwise_map.mp hnodup
  constructor
  · exact (hsorted.and hne).imp fun h => lt_of_le_of_ne h.1 h.2
  · intro p hp
    have hpall : p ∈ (subs ++ discoverNestedRepos entries
        (subs.map SubRepoInfo.path)).map SubRepoInfo.path := by
      rw [List.map_append, List.mem_append]
      exact Or.inl hp
    obtain ⟨r, hrd, hrp⟩ := dedupByPath_exists hpall [] (List.not_mem_nil p)
    have hrres : r ∈ collectAllRepos subs entries := hperm.mem_iff.mpr hrd
    refine ⟨r, hrres, hrp, ?_⟩
    rcases List.mem_append.mp (mem_dedupByPath hrd) with hrs | hrn
    · exact hrs
    · exact absurd (hrp ▸ hp)
        (discoverRec_not_known [] entries (subs.map SubRepoInfo.path) r hrn)

/-- Witness for C7: `libs/core` is both registered (handle 10) and present on
disk as a scannable repository (handle 5); discovery returns exactly the
registered entry. -/
theorem collect_all_repos_invariants_witness :
    ("libs/core" ∈ ([⟨"libs/core", 10⟩] : List SubRepoInfo).map
      SubRepoInfo.path) ∧
    ∃ r, r ∈ collectAllRepos [⟨"libs/core", 10⟩]
        [.dir "libs" false true 0 [.dir "core" true true 5 []]] ∧
      r.path = "libs/core" ∧ r ∈ ([⟨"libs/core", 10⟩] : List SubRepoInfo) :=
  ⟨by simp,
   (collect_all_repos_invariants [⟨"libs/core", 10⟩]
     [.dir "libs" false true 0 [.dir "core" true true 5 []]]).2
     "libs/core" (by simp)⟩

/-- Embeds `save_one_repo` (src/main.rs lines 226-239): start from the default
config (`GemoteConfig::default()`: policy `Ignore`, no remotes, no
submodules) and insert every local remote with its url and push_url. -/
def saveOneRepo (locals : List (String × RemoteInfo)) : GemoteConfig :=
  .mk ⟨.Ignore⟩
    (locals.foldl (fun acc nv =>
      insertSorted nv.1 ⟨nv.2.url, nv.2.push_url⟩ acc) [])
    []

theorem insertSorted_append {α : Type} {n : String} {v : α}
    {acc : List (String × α)} (h : ∀ q ∈ acc, q.1 < n) :
    insertSorted n v acc = acc ++ [(n, v)] := by
  induction acc with
  | nil => rfl
  | cons q rest ih =>
    obtain ⟨m, w⟩ := q
    have hm : m < n := h (m, w) (List.mem_cons_self _ _)
    rw [insertSorted]
    rw [if_neg (by exact not_lt_of_gt hm), if_neg (by exact ne_of_gt hm)]
    rw [ih fun q hq => h q (List.mem_cons_of_mem _ hq)]
    rfl

theorem foldl_insertSorted (locals : List (String × RemoteInfo)) :
    ∀ acc : List (String × RemoteConfig),
      List.Pairwise (· < ·) (acc.map Prod.fst ++ locals.map Prod.fst) →
      locals.foldl (fun acc nv =>
        insertSorted nv.1 ⟨nv.2.url, nv.2.push_url⟩ acc) acc =
      acc ++ locals.map (fun nv => (nv.1, (⟨nv.2.url, nv.2.push_url⟩ :
        RemoteConfig))) := by
  induction locals with
  | nil => intro acc _; simp
  | cons nv rest ih =>
    intro acc hpw
    have hlt : ∀ q ∈ acc, q.1 < nv.1 := by
      intro q hq
      have := List.pairwise_append.mp hpw
      exact this.2.2 q.1 (List.mem_map_of_mem _ hq) nv.1
        (by simp)
    have hpw' : List.Pairwise (· < ·)
        ((acc ++ [(nv.1, (⟨nv.2.url, nv.2.push_url⟩ : RemoteConfig))]).map
          Prod.fst ++ rest.map Prod.fst) := by
      simp only [List.map_append, List.map_cons, List.map_singleton,
        List.append_assoc, List.singleton_append] at hpw ⊢
      simpa using hpw
    rw [List.foldl_cons, insertSorted_append hlt, ih _ hpw']
    simp

theorem lookupKey_of_mem {α : Type} {l : List (String × α)} {n : String} {v : α}
    (hpw : List.Pairwise (fun p q : String × α => p.1 ≠ q.1) l)
    (hmem : (n, v) ∈ l) : lookupKey n l = some v := by
  induction l with
  | nil => exact absurd hmem (List.not_mem_nil _)
  | cons q rest ih =>
    obtain ⟨m, w⟩ := q
    have hpw' := List.pairwise_cons.mp hpw
    rcases List.mem_cons.mp hmem with heq | hmemr
    · rw [← heq]
      simp [lookupKey]
    · have hmn : m ≠ n := hpw'.1 (n, v) hmemr
      rw [lookupKey, if_neg hmn]
      exact ih hpw'.2 hmemr

/-- C10: saving then syncing is a fixed point: the config that `save` builds
from a local remote mapping (default `Ignore` policy, exactly the local
remotes with their urls and push_urls) diffs against that same mapping to the
empty action sequence. -/
theorem save_then_sync_empty (locals : List (String × RemoteInfo))
    (hl : List.Pairwise (· < ·) (locals.map Prod.fst)) :
    (computeDiff (saveOneRepo locals) locals).1 = [] := by
  have hremotes : (saveOneRepo locals).remotes =
      locals.map (fun nv => (nv.1, (⟨nv.2.url, nv.2.push_url⟩ :
        RemoteConfig))) := by
    show locals.foldl _ [] = _
    have := foldl_insertSorted locals [] (by simpa using hl)
    simpa using this
  have hne : List.Pairwise (fun p q : String × RemoteInfo => p.1 ≠ q.1) locals :=
    (List.pairwise_map.mp hl).imp fun h => ne_of_lt h
  show diffPass1 (saveOneRepo locals) locals ++
    diffPass2 (saveOneRepo locals) locals = []
  rw [List.append_eq_nil]
  constructor
  · rw [diffPass1_eq_nil_iff]
    intro p hp
    rw [hremotes] at hp
    obtain ⟨nv, hnv, rfl⟩ := List.mem_map.mp hp
    obtain ⟨n, ri⟩ := nv
    exact ⟨ri, lookupKey_of_mem hne hnv, rfl, rfl⟩
  · rw [diffPass2_eq_nil_iff]
    intro q _
    right
    show (saveOneRepo locals).settings.extra_remotes ≠ ExtraRemotes.Remove
    simp [saveOneRepo, GemoteConfig.settings]

/-- Witness for C10 at a concrete local mapping with one remote carrying a
push_url. -/
theorem save_then_sync_empty_witness :
    List.Pairwise (· < ·)
      (([("origin", (⟨"https://u", some "p"⟩ : RemoteInfo))].map Prod.fst)) ∧
    (computeDiff (saveOneRepo [("origin", ⟨"https://u", some "p"⟩)])
      [("origin", ⟨"https://u", some "p"⟩)]).1 = [] :=
  ⟨by simp, save_then_sync_empty [("origin", ⟨"https://u", some "p"⟩)]
    (by simp)⟩

end Gemote
